import Mathlib

/-!
# Verification of the Meruki/Goofish price-comparison pipeline

Shallow embedding of `scripts/auto_price_compare.py`.  Strings are modelled
as `List Char`; Python floats as exact rationals (`ℚ`); the browser-automation
collaborator appears as oracle functions whose `none` value models a
playwright `TimeoutError`.  The regex character classes are modelled on the
ASCII range: the class matched by a backslash-s in the source is the six
ASCII whitespace characters, and the word characters of a word boundary are
ASCII alphanumerics and the underscore.  All concrete inputs used below are
ASCII, where this model agrees with Python exactly.
-/

namespace PriceCompare

/-- Whitespace as matched by the source's regex class (ASCII range). -/
def pyIsSpace (c : Char) : Bool :=
  c = ' ' || c = '\t' || c = '\n' || c = '\r' || c = '\x0b' || c = '\x0c'

/-- ASCII decimal digit, the class `[0-9]` of the price regex. -/
def pyIsDigit (c : Char) : Bool :=
  '0' ≤ c && c ≤ '9'

/-- Word character for the regex word boundary (ASCII range of Python's `\w`). -/
def pyIsWordChar (c : Char) : Bool :=
  c.isAlphanum || c = '_'

/-- One pass of `re.sub(r"\s+", " ", s)`: the flag records whether the
previous character was whitespace, so each maximal whitespace run is emitted
as one single `' '`. -/
def collapseWsAux (prevSpace : Bool) : List Char → List Char
  | [] => []
  | c :: cs =>
    if pyIsSpace c then
      if prevSpace then collapseWsAux true cs
      else ' ' :: collapseWsAux true cs
    else c :: collapseWsAux false cs

/-- Embedding of `re.sub(r"\s+", " ", s)`. -/
def collapseWs (l : List Char) : List Char := collapseWsAux false l

/-- Remove the trailing run of characters satisfying `p` (the right half of a
Python `strip`). -/
def dropTrailing (p : Char → Bool) (l : List Char) : List Char :=
  (l.reverse.dropWhile p).reverse

/-- Embedding of Python `str.strip()` (whitespace on both ends). -/
def stripWs (l : List Char) : List Char :=
  dropTrailing pyIsSpace (l.dropWhile pyIsSpace)

/-- Membership in the strip set of the source's `.strip(" -_")`. -/
def isStripSetChar (c : Char) : Bool :=
  c = ' ' || c = '-' || c = '_'

/-- Embedding of the source's `str.strip(" -_")`. -/
def stripSet (l : List Char) : List Char :=
  dropTrailing isStripSetChar (l.dropWhile isStripSetChar)

/-- Case-insensitive character comparison, for the regex IGNORECASE flag. -/
def ciEq (c d : Char) : Bool := c.toLower == d.toLower

/-- Case-insensitive "the pattern starts this text" test. -/
def ciIsPrefixOf : List Char → List Char → Bool
  | [], _ => true
  | _ :: _, [] => false
  | p :: ps, c :: cs => ciEq p c && ciIsPrefixOf ps cs

/-- Word boundary immediately before this rest of the text: the end of the
string, or a non-word character. -/
def boundaryAt : List Char → Bool
  | [] => true
  | c :: _ => !pyIsWordChar c

/-- Scanner for `re.sub(r"(?i)\bPAT\b", "", s)` with `PAT = p0 :: ps`, a
pattern made of word characters.  `b` records whether the character before
the current position is a word character (so `!b` is the left boundary), and
the scan is left-to-right and non-overlapping, exactly as `re.sub` substitutes.
The `Nat` argument is structural recursion fuel, always called with the length
of the list, so that the function evaluates by kernel reduction. -/
def removeWordF (p0 : Char) (ps : List Char) : Nat → Bool → List Char → List Char
  | _, _, [] => []
  | 0, _, l => l
  | f + 1, b, c :: cs =>
    if !b && ciIsPrefixOf (p0 :: ps) (c :: cs) && boundaryAt (List.drop ps.length cs) then
      removeWordF p0 ps f (pyIsWordChar (ps.getLastD p0)) (List.drop ps.length cs)
    else
      c :: removeWordF p0 ps f (pyIsWordChar c) cs

/-- Embedding of `re.sub(r"(?i)\bPAT\b", "", s)` for the word `p0 :: ps`. -/
def removeWordCI (p0 : Char) (ps : List Char) (l : List Char) : List Char :=
  removeWordF p0 ps l.length false l

/-- Literal (case-sensitive) "the pattern starts this text" test. -/
def litPre : List Char → List Char → Bool
  | [], _ => true
  | _ :: _, [] => false
  | p :: ps, c :: cs => p == c && litPre ps cs

/-- Scanner for Python `str.replace(pat, "")` with `pat = p0 :: ps`:
left-to-right removal of every non-overlapping occurrence.  The `Nat`
argument is structural recursion fuel, always called with the length of the
list, so that the function evaluates by kernel reduction. -/
def removeAllF (p0 : Char) (ps : List Char) : Nat → List Char → List Char
  | _, [] => []
  | 0, l => l
  | f + 1, c :: cs =>
    if litPre (p0 :: ps) (c :: cs) then removeAllF p0 ps f (List.drop ps.length cs)
    else c :: removeAllF p0 ps f cs

/-- Embedding of Python `str.replace(p0 :: ps, "")`. -/
def removeAll (p0 : Char) (ps : List Char) (l : List Char) : List Char :=
  removeAllF p0 ps l.length l

/-- The literal brand token hard-coded in the source's regex `(?i)\bspark\b`. -/
def sparkChars : List Char := ['s', 'p', 'a', 'r', 'k']

/-- The literal scale marker `"1:43"` of the source. -/
def scaleColonChars : List Char := ['1', ':', '4', '3']

/-- The literal scale marker `"1/43"` of the source (also the default `scale`
argument). -/
def scaleSlashChars : List Char := ['1', '/', '4', '3']

/-- Steps 1-4 of `normalize_name` from the source, applied to `raw_name`:
collapse and strip whitespace; `re.sub(r"(?i)\bspark\b", "", text)`;
`text.replace("1:43", "").replace("1/43", "")`; collapse whitespace and
`strip(" -_")`. -/
def normCore (raw_name : List Char) : List Char :=
  stripSet (collapseWs
    (removeAll '1' ['/', '4', '3']
      (removeAll '1' [':', '4', '3']
        (removeWordCI 's' ['p', 'a', 'r', 'k']
          (stripWs (collapseWs raw_name))))))

/-- Embedding of `normalize_name(raw_name, prefix_brand="spark", scale="1/43")`
from the source: the four stripping steps (`normCore`) followed by
`f"{prefix_brand} {scale} {text}".strip()`. -/
def normalize_name (raw_name prefix_brand scale : List Char) : List Char :=
  stripWs (prefix_brand ++ ' ' :: (scale ++ ' ' :: normCore raw_name))

/-- Whole-word case-insensitive removal of an arbitrary token (empty token:
nothing to remove).  Used only by the specification-side definition below. -/
def removeWordTok (tok : List Char) (l : List Char) : List Char :=
  match tok with
  | [] => l
  | p :: ps => removeWordF p ps l.length false l

/-- Modelled from the words of claim C1 (specification section 4.2): the same
five steps, but the brand token removed in step 2 is the `prefix_brand`
argument itself, as a case-insensitive whole-word match. -/
def normalize_name_claimC1 (raw_name prefix_brand scale : List Char) : List Char :=
  stripWs (prefix_brand ++ ' ' :: (scale ++ ' ' ::
    stripSet (collapseWs
      (removeAll '1' ['/', '4', '3']
        (removeAll '1' [':', '4', '3']
          (removeWordTok prefix_brand
            (stripWs (collapseWs raw_name))))))))

/-- The claim C1 algorithm amended to what the source does: the brand token
removed in step 2 is always the literal word `"spark"`, whatever the
`prefix_brand` argument is. -/
def normalize_name_amendedC1 (raw_name prefix_brand scale : List Char) : List Char :=
  stripWs (prefix_brand ++ ' ' :: (scale ++ ' ' ::
    stripSet (collapseWs
      (removeAll '1' ['/', '4', '3']
        (removeAll '1' [':', '4', '3']
          (removeWordTok sparkChars
            (stripWs (collapseWs raw_name))))))))

/-- Currency marker alternatives `(?:¥|￥)` of the price regex. -/
def isCurrencyMark (c : Char) : Bool := c = '¥' || c = '￥'

/-- The capture group `([0-9]+(?:\.[0-9]+)?)` matched at the very start of
`l`: a maximal nonempty digit run, extended by `.` and a maximal nonempty
digit run when present (the greedy optional group). -/
def matchNumAt (l : List Char) : Option (List Char) :=
  match l.takeWhile pyIsDigit with
  | [] => none
  | d :: ds =>
    match l.dropWhile pyIsDigit with
    | [] => some (d :: ds)
    | e :: r2 =>
      if e = '.' then
        match r2.takeWhile pyIsDigit with
        | [] => some (d :: ds)
        | f :: fs => some ((d :: ds) ++ '.' :: f :: fs)
      else some (d :: ds)

/-- The whole price pattern `(?:¥|￥)?\s*([0-9]+(?:\.[0-9]+)?)` tried at one
position: an optional currency marker, then a whitespace run, then the
number; the returned value is the capture group. -/
def matchAt (l : List Char) : Option (List Char) :=
  match l with
  | [] => none
  | c :: cs =>
    if isCurrencyMark c then matchNumAt (cs.dropWhile pyIsSpace)
    else matchNumAt ((c :: cs).dropWhile pyIsSpace)

/-- Embedding of `PRICE_RE.search`: the match at the leftmost position where
the pattern matches at all. -/
def searchPrice : List Char → Option (List Char)
  | [] => none
  | c :: cs =>
    match matchAt (c :: cs) with
    | some g => some g
    | none => searchPrice cs

/-- Value of a digit run as a natural number. -/
def digitsVal (l : List Char) : Nat :=
  l.foldl (fun a c => 10 * a + (c.toNat - '0'.toNat)) 0

/-- Embedding of `float(...)` on the token shapes the price regex can
capture: a nonempty digit run with an optional single decimal point followed
by a nonempty digit run, read as an exact rational.  Any other shape models
the `ValueError` branch and returns `none`. -/
def pyFloat (l : List Char) : Option ℚ :=
  match l.takeWhile pyIsDigit with
  | [] => none
  | d :: ds =>
    match l.dropWhile pyIsDigit with
    | [] => some (digitsVal (d :: ds) : ℚ)
    | e :: fs =>
      if e = '.' && !fs.isEmpty && fs.all pyIsDigit then
        some ((digitsVal (d :: ds) : ℚ) + (digitsVal fs : ℚ) / (10 : ℚ) ^ fs.length)
      else none

/-- Embedding of `parse_price`: strip commas (`text.replace(",", "")`), search
for the first regex match, convert the captured group; `none` both when the
regex finds nothing and when conversion fails.  The function is total, the
embedding's form of "never raises". -/
def parse_price (text : List Char) : Option ℚ :=
  match searchPrice (removeAll ',' [] text) with
  | none => none
  | some g =>
    match pyFloat g with
    | none => none
    | some v => some v

/-- Embedding of the `CompareResult` dataclass. -/
structure CompareResult where
  source_name : List Char
  normalized_name : List Char
  prices : List ℚ
deriving DecidableEq

/-- Embedding of the `min_price` property: `min(self.prices) if self.prices
else None`, with Python's `min` as a left fold of the binary minimum.  A pure
function of `prices`. -/
def CompareResult.min_price (r : CompareResult) : Option ℚ :=
  match r.prices with
  | [] => none
  | p :: ps => some (ps.foldl min p)

/-- Embedding of the `avg_price` property: `statistics.mean(self.prices) if
self.prices else None`, the exact sum divided by the count.  A pure function
of `prices`. -/
def CompareResult.avg_price (r : CompareResult) : Option ℚ :=
  match r.prices with
  | [] => none
  | _ :: _ => some (r.prices.sum / (r.prices.length : ℚ))

/-- Embedding of `dict.fromkeys` deduplication: keep an element when it has
not been seen yet, scanning left to right. -/
def dedupeKeys (seen : List (List Char)) : List (List Char) → List (List Char)
  | [] => []
  | a :: l => if a ∈ seen then dedupeKeys seen l else a :: dedupeKeys (a :: seen) l

/-- Embedding of `get_meruki_result_names` on the extracted text fragments:
strip each fragment, drop the empty ones, deduplicate preserving order.  The
navigation and extraction themselves are the collaborator; `fragments` is
what its `inner_text()` calls returned. -/
def get_meruki_result_names (fragments : List (List Char)) : List (List Char) :=
  dedupeKeys [] ((fragments.map stripWs).filter (fun t => !t.isEmpty))

/-- Embedding of `collect_goofish_prices` on the extracted price fragments:
read at most `max_items` rows, parse each, keep the successfully parsed
values in order. -/
def collect_goofish_prices (rows : List (List Char)) (max_items : Nat) : List ℚ :=
  (rows.take max_items).filterMap parse_price

/-- Observable events of one `main` run, for the resource and output-file
claims: acquiring and releasing the shared browsing context, the discovery
query, one resale query per item, and the CSV write. -/
inductive Ev where
  | acquire
  | discoverNames
  | fetchPrices (query : List Char)
  | writeCsv
  | release
deriving DecidableEq

/-- The message of the `RuntimeError` raised on discovery timeout. -/
def merukiTimeoutMsg : List Char :=
  "Meruki page interaction timeout. Please adjust selectors/wait time.".toList

/-- The message of the `RuntimeError` raised when no names were captured. -/
def noNamesMsg : List Char :=
  "No Meruki result names captured. Please check selectors.".toList

/-- One iteration of `main`'s loop over a retained catalog name: normalize
with the default arguments, query Goofish, and on `TimeoutError` (the oracle's
`none`) use an empty price list. -/
def runItem (gof : List Char → Option (List (List Char))) (maxPrice : Nat)
    (source : List Char) : CompareResult :=
  let normalized := normalize_name source sparkChars scaleSlashChars
  let prices :=
    match gof normalized with
    | none => []
    | some rows => collect_goofish_prices rows maxPrice
  ⟨source, normalized, prices⟩

/-- Embedding of `main`: the Meruki oracle is `none` on discovery timeout,
otherwise the extracted fragments; the Goofish oracle is `none` on a per-item
timeout, otherwise the price fragments for that query.  The first component
is the event trace (context acquired; discovery; one fetch per retained item;
CSV write; context released), the second the run's outcome: `error` models
the raised `RuntimeError`, `ok` the rows handed to `write_csv`. -/
def mainRun (meruki : Option (List (List Char)))
    (gof : List Char → Option (List (List Char)))
    (maxSource maxPrice : Nat) : List Ev × Except (List Char) (List CompareResult) :=
  match meruki with
  | none => ([Ev.acquire, Ev.discoverNames, Ev.release], Except.error merukiTimeoutMsg)
  | some fragments =>
    let source_names := get_meruki_result_names fragments
    if source_names.isEmpty then
      ([Ev.acquire, Ev.discoverNames, Ev.release], Except.error noNamesMsg)
    else
      let retained := source_names.take maxSource
      (Ev.acquire :: Ev.discoverNames ::
        (retained.map (fun s => Ev.fetchPrices (normalize_name s sparkChars scaleSlashChars))
          ++ [Ev.writeCsv, Ev.release]),
       Except.ok (retained.map (runItem gof maxPrice)))

/-- Every whitespace character of the list is a plain `' '`.  This is what
`collapseWs` guarantees, since it rewrites every whitespace run to one space. -/
def wsNormal (l : List Char) : Prop := ∀ c ∈ l, pyIsSpace c = true → c = ' '

/-- No two adjacent whitespace characters. -/
def noTwoSpaces : List Char → Prop
  | [] => True
  | [_] => True
  | a :: b :: l => ¬(pyIsSpace a = true ∧ pyIsSpace b = true) ∧ noTwoSpaces (b :: l)

/-- Invariant of a whitespace-collapsed string. -/
def collapsedOK (l : List Char) : Prop := wsNormal l ∧ noTwoSpaces l

/- ## Whitespace collapsing -/

theorem noTwoSpaces_tail {c : Char} {l : List Char} (h : noTwoSpaces (c :: l)) :
    noTwoSpaces l := by
  cases l with
  | nil => trivial
  | cons d ds => exact h.2

theorem noTwoSpaces_cons {c : Char} {l : List Char} (hc : pyIsSpace c = false)
    (hl : noTwoSpaces l) : noTwoSpaces (c :: l) := by
  cases l with
  | nil => trivial
  | cons d ds => exact ⟨fun h => by simp [hc] at h, hl⟩

theorem collapseWsAux_cons_nonspace {c : Char} (l : List Char) (b : Bool)
    (h : pyIsSpace c = false) :
    collapseWsAux b (c :: l) = c :: collapseWsAux false l := by
  simp [collapseWsAux, h]

theorem collapseWsAux_true_head {l : List Char} {d : Char} {ds : List Char}
    (h : collapseWsAux true l = d :: ds) : pyIsSpace d = false := by
  induction l with
  | nil => simp [collapseWsAux] at h
  | cons c cs ih =>
    by_cases hc : pyIsSpace c = true
    · rw [show collapseWsAux true (c :: cs) = collapseWsAux true cs by
        simp [collapseWsAux, hc]] at h
      exact ih h
    · rw [collapseWsAux_cons_nonspace cs true (by simpa using hc)] at h
      cases h
      simpa using hc

theorem wsNormal_collapseWsAux (l : List Char) (b : Bool) :
    wsNormal (collapseWsAux b l) := by
  induction l generalizing b with
  | nil => intro c hc; simp [collapseWsAux] at hc
  | cons c cs ih =>
    by_cases hc : pyIsSpace c = true
    · cases b with
      | true =>
        rw [show collapseWsAux true (c :: cs) = collapseWsAux true cs by
          simp [collapseWsAux, hc]]
        exact ih true
      | false =>
        rw [show collapseWsAux false (c :: cs) = ' ' :: collapseWsAux true cs by
          simp [collapseWsAux, hc]]
        intro x hx hxs
        rcases List.mem_cons.mp hx with h | h
        · exact h
        · exact ih true x h hxs
    · rw [collapseWsAux_cons_nonspace cs b (by simpa using hc)]
      intro x hx hxs
      rcases List.mem_cons.mp hx with h | h
      · exact absurd (h ▸ hxs) hc
      · exact ih false x h hxs

theorem noTwoSpaces_collapseWsAux (l : List Char) (b : Bool) :
    noTwoSpaces (collapseWsAux b l) := by
  induction l generalizing b with
  | nil => simp [collapseWsAux]; trivial
  | cons c cs ih =>
    by_cases hc : pyIsSpace c = true
    · cases b with
      | true =>
        rw [show collapseWsAux true (c :: cs) = collapseWsAux true cs by
          simp [collapseWsAux, hc]]
        exact ih true
      | false =>
        rw [show collapseWsAux false (c :: cs) = ' ' :: collapseWsAux true cs by
          simp [collapseWsAux, hc]]
        cases hrec : collapseWsAux true cs with
        | nil => trivial
        | cons d ds =>
          refine ⟨fun hcontra => ?_, hrec ▸ ih true⟩
          have := collapseWsAux_true_head hrec
          rw [this] at hcontra
          exact Bool.false_ne_true hcontra.2
    · rw [collapseWsAux_cons_nonspace cs b (by simpa using hc)]
      exact noTwoSpaces_cons (by simpa using hc) (ih false)

theorem collapsedOK_collapseWs (l : List Char) : collapsedOK (collapseWs l) :=
  ⟨wsNormal_collapseWsAux l false, noTwoSpaces_collapseWsAux l false⟩

theorem collapseWsAux_eq_self {l : List Char} (h : collapsedOK l) :
    collapseWsAux false l = l := by
  induction l with
  | nil => rfl
  | cons c cs ih =>
    have hcs : collapsedOK cs :=
      ⟨fun x hx => h.1 x (List.mem_cons_of_mem c hx), noTwoSpaces_tail h.2⟩
    by_cases hc : pyIsSpace c = true
    · have hcsp : c = ' ' := h.1 c (List.mem_cons_self c cs) hc
      rw [show collapseWsAux false (c :: cs) = ' ' :: collapseWsAux true cs by
        simp [collapseWsAux, hc]]
      cases cs with
      | nil => rw [hcsp]; rfl
      | cons d ds =>
        have hd : pyIsSpace d = false := by
          rcases h.2 with ⟨h1, _⟩
          cases hdd : pyIsSpace d
          · rfl
          · exact absurd ⟨hc, hdd⟩ h1
        rw [collapseWsAux_cons_nonspace ds true hd, hcsp]
        have := ih hcs
        rw [collapseWsAux_cons_nonspace ds false hd] at this
        rw [List.cons.injEq] at this
        rw [this.2]
    · rw [collapseWsAux_cons_nonspace cs false (by simpa using hc)]
      rw [ih hcs]

theorem collapseWs_eq_self {l : List Char} (h : collapsedOK l) : collapseWs l = l :=
  collapseWsAux_eq_self h

theorem collapseWsAux_true_eq_self {c : Char} {l : List Char}
    (hc : pyIsSpace c = false) (h : collapsedOK (c :: l)) :
    collapseWsAux true (c :: l) = c :: l := by
  rw [collapseWsAux_cons_nonspace l true hc]
  have := collapseWsAux_eq_self h
  rw [collapseWsAux_cons_nonspace l false hc] at this
  rw [List.cons.injEq] at this
  rw [this.2]

/- ## Stripping from both ends -/

theorem dropWhile_head_false {p : Char → Bool} :
    ∀ {l : List Char} {c : Char} {r : List Char}, l.dropWhile p = c :: r → p c = false
  | [], _, _, h => by simp at h
  | a :: as, c, r, h => by
    by_cases ha : p a = true
    · rw [List.dropWhile_cons, if_pos ha] at h
      exact dropWhile_head_false h
    · rw [List.dropWhile_cons, if_neg ha] at h
      cases h
      simpa using ha

theorem dropTrailing_append (p : Char → Bool) (l : List Char) :
    ∃ b, dropTrailing p l ++ b = l := by
  refine ⟨(l.reverse.takeWhile p).reverse, ?_⟩
  have h := List.takeWhile_append_dropWhile p l.reverse
  have := congrArg List.reverse h
  rw [List.reverse_append, List.reverse_reverse] at this
  exact this

theorem reverse_dropTrailing (p : Char → Bool) (l : List Char) :
    (dropTrailing p l).reverse = l.reverse.dropWhile p := by
  simp [dropTrailing]

theorem dropTrailing_rev_head {p : Char → Bool} {l : List Char} {c : Char}
    {r : List Char} (h : (dropTrailing p l).reverse = c :: r) : p c = false := by
  rw [reverse_dropTrailing] at h
  exact dropWhile_head_false h

theorem stripTwo_head {p : Char → Bool} {l : List Char} {c : Char} {r : List Char}
    (h : dropTrailing p (l.dropWhile p) = c :: r) : p c = false := by
  obtain ⟨b, hb⟩ := dropTrailing_append p (l.dropWhile p)
  rw [h] at hb
  exact dropWhile_head_false hb.symm

theorem dropWhile_eq_self_of_head {p : Char → Bool} {l : List Char}
    (h : ∀ c r, l = c :: r → p c = false) : l.dropWhile p = l := by
  cases l with
  | nil => rfl
  | cons c cs => rw [List.dropWhile_cons, if_neg (by simp [h c cs rfl])]

theorem dropTrailing_eq_self_of_rev_head {p : Char → Bool} {l : List Char}
    (h : ∀ c r, l.reverse = c :: r → p c = false) : dropTrailing p l = l := by
  unfold dropTrailing
  rw [dropWhile_eq_self_of_head h, List.reverse_reverse]

/- ## The collapsed invariant survives taking sublists at either end -/

theorem noTwoSpaces_append_right {a b : List Char} (h : noTwoSpaces (a ++ b)) :
    noTwoSpaces b := by
  induction a with
  | nil => exact h
  | cons x a' ih => exact ih (noTwoSpaces_tail h)

theorem noTwoSpaces_append_left {b : List Char} :
    ∀ {a : List Char}, noTwoSpaces (a ++ b) → noTwoSpaces a
  | [], _ => trivial
  | [x], _ => trivial
  | x :: y :: a', h => by
    have h' : noTwoSpaces (x :: y :: (a' ++ b)) := h
    exact ⟨h'.1, noTwoSpaces_append_left (a := y :: a') h'.2⟩

theorem collapsedOK_append_right {a b : List Char} (h : collapsedOK (a ++ b)) :
    collapsedOK b :=
  ⟨fun c hc => h.1 c (List.mem_append_right a hc), noTwoSpaces_append_right h.2⟩

theorem collapsedOK_append_left {a b : List Char} (h : collapsedOK (a ++ b)) :
    collapsedOK a :=
  ⟨fun c hc => h.1 c (List.mem_append_left b hc), noTwoSpaces_append_left h.2⟩

theorem collapsedOK_stripSet {u : List Char} (h : collapsedOK u) :
    collapsedOK (stripSet u) := by
  obtain ⟨a, ha⟩ : ∃ a, a ++ u.dropWhile isStripSetChar = u :=
    ⟨u.takeWhile isStripSetChar, List.takeWhile_append_dropWhile _ u⟩
  have hdw : collapsedOK (u.dropWhile isStripSetChar) :=
    collapsedOK_append_right (ha ▸ h)
  obtain ⟨b, hb⟩ := dropTrailing_append isStripSetChar (u.dropWhile isStripSetChar)
  exact collapsedOK_append_left (hb ▸ hdw)

/-- Structural facts about the text remaining after steps 1-4: it is
whitespace-collapsed, and neither end is a space, hyphen or underscore. -/
theorem normCore_facts (raw : List Char) :
    collapsedOK (normCore raw)
    ∧ (∀ c r, normCore raw = c :: r → isStripSetChar c = false)
    ∧ (∀ c r, (normCore raw).reverse = c :: r → isStripSetChar c = false) := by
  refine ⟨collapsedOK_stripSet (collapsedOK_collapseWs _), ?_, ?_⟩
  · intro c r h
    exact stripTwo_head h
  · intro c r h
    exact dropTrailing_rev_head h

theorem nonspace_of_clean {t : List Char} {c : Char} (hws : wsNormal t)
    (hmem : c ∈ t) (hset : isStripSetChar c = false) : pyIsSpace c = false := by
  cases h : pyIsSpace c
  · rfl
  · have := hws c hmem h
    subst this
    simp [isStripSetChar] at hset

/- ## Fuel irrelevance for the two scanners -/

theorem removeAllF_fuel (p0 : Char) (ps : List Char) :
    ∀ (f g : Nat) (l : List Char), l.length ≤ f → l.length ≤ g →
      removeAllF p0 ps f l = removeAllF p0 ps g l := by
  intro f
  induction f with
  | zero =>
    intro g l hf _
    have : l = [] := List.length_eq_zero.mp (Nat.le_zero.mp hf)
    subst this
    cases g <;> rfl
  | succ f ih =>
    intro g l hf hg
    cases l with
    | nil => cases g <;> rfl
    | cons c cs =>
      cases g with
      | zero => simp at hg
      | succ g =>
        show (if litPre (p0 :: ps) (c :: cs) then removeAllF p0 ps f (List.drop ps.length cs)
              else c :: removeAllF p0 ps f cs)
          = (if litPre (p0 :: ps) (c :: cs) then removeAllF p0 ps g (List.drop ps.length cs)
              else c :: removeAllF p0 ps g cs)
        have hcs : cs.length ≤ f := by simp at hf; omega
        have hcs' : cs.length ≤ g := by simp at hg; omega
        have hdrop : (List.drop ps.length cs).length ≤ cs.length := by
          rw [List.length_drop]; omega
        by_cases hmatch : litPre (p0 :: ps) (c :: cs) = true
        · rw [if_pos hmatch, if_pos hmatch,
            ih g _ (Nat.le_trans hdrop hcs) (Nat.le_trans hdrop hcs')]
        · rw [if_neg hmatch, if_neg hmatch, ih g cs hcs hcs']

theorem removeWordF_fuel (p0 : Char) (ps : List Char) :
    ∀ (f g : Nat) (b : Bool) (l : List Char), l.length ≤ f → l.length ≤ g →
      removeWordF p0 ps f b l = removeWordF p0 ps g b l := by
  intro f
  induction f with
  | zero =>
    intro g b l hf _
    have : l = [] := List.length_eq_zero.mp (Nat.le_zero.mp hf)
    subst this
    cases g <;> rfl
  | succ f ih =>
    intro g b l hf hg
    cases l with
    | nil => cases g <;> rfl
    | cons c cs =>
      cases g with
      | zero => simp at hg
      | succ g =>
        show (if !b && ciIsPrefixOf (p0 :: ps) (c :: cs) && boundaryAt (List.drop ps.length cs)
              then removeWordF p0 ps f (pyIsWordChar (ps.getLastD p0)) (List.drop ps.length cs)
              else c :: removeWordF p0 ps f (pyIsWordChar c) cs)
          = (if !b && ciIsPrefixOf (p0 :: ps) (c :: cs) && boundaryAt (List.drop ps.length cs)
              then removeWordF p0 ps g (pyIsWordChar (ps.getLastD p0)) (List.drop ps.length cs)
              else c :: removeWordF p0 ps g (pyIsWordChar c) cs)
        have hcs : cs.length ≤ f := by simp at hf; omega
        have hcs' : cs.length ≤ g := by simp at hg; omega
        have hdrop : (List.drop ps.length cs).length ≤ cs.length := by
          rw [List.length_drop]; omega
        by_cases hmatch :
            (!b && ciIsPrefixOf (p0 :: ps) (c :: cs) && boundaryAt (List.drop ps.length cs)) = true
        · rw [if_pos hmatch, if_pos hmatch,
            ih g _ _ (Nat.le_trans hdrop hcs) (Nat.le_trans hdrop hcs')]
        · rw [if_neg hmatch, if_neg hmatch, ih g _ cs hcs hcs']

/- ## Deduplication -/

theorem dedupeKeys_congr :
    ∀ (l : List (List Char)) {s1 s2 : List (List Char)},
      (∀ x, x ∈ s1 ↔ x ∈ s2) → dedupeKeys s1 l = dedupeKeys s2 l
  | [], _, _, _ => rfl
  | a :: l, s1, s2, h => by
    by_cases ha : a ∈ s1
    · rw [dedupeKeys, if_pos ha, dedupeKeys, if_pos ((h a).mp ha)]
      exact dedupeKeys_congr l h
    · rw [dedupeKeys, if_neg ha, dedupeKeys, if_neg (fun hc => ha ((h a).mpr hc))]
      refine congrArg (a :: ·) (dedupeKeys_congr l fun x => ?_)
      simp only [List.mem_cons, h x]

theorem dedupeKeys_mem :
    ∀ (l : List (List Char)) (seen : List (List Char)) (x : List Char),
      x ∈ dedupeKeys seen l ↔ x ∈ l ∧ x ∉ seen
  | [], seen, x => by simp [dedupeKeys]
  | a :: l, seen, x => by
    by_cases ha : a ∈ seen
    · rw [dedupeKeys, if_pos ha, dedupeKeys_mem l seen x]
      constructor
      · exact fun h => ⟨List.mem_cons_of_mem a h.1, h.2⟩
      · rintro ⟨hx, hns⟩
        rcases List.mem_cons.mp hx with rfl | hx
        · exact absurd ha hns
        · exact ⟨hx, hns⟩
    · rw [dedupeKeys, if_neg ha]
      constructor
      · intro h
        rcases List.mem_cons.mp h with rfl | h
        · exact ⟨List.mem_cons_self x l, ha⟩
        · have := (dedupeKeys_mem l (a :: seen) x).mp h
          exact ⟨List.mem_cons_of_mem a this.1,
            fun hc => this.2 (List.mem_cons_of_mem a hc)⟩
      · rintro ⟨hx, hns⟩
        by_cases hxa : x = a
        · exact hxa ▸ List.mem_cons_self a _
        · rcases List.mem_cons.mp hx with rfl | hx
          · exact absurd rfl hxa
          · exact List.mem_cons_of_mem a ((dedupeKeys_mem l (a :: seen) x).mpr
              ⟨hx, by simp [List.mem_cons, hxa, hns]⟩)

theorem dedupeKeys_sublist :
    ∀ (l : List (List Char)) (seen : List (List Char)),
      (dedupeKeys seen l).Sublist l
  | [], _ => List.Sublist.refl []
  | a :: l, seen => by
    by_cases ha : a ∈ seen
    · rw [dedupeKeys, if_pos ha]
      exact (dedupeKeys_sublist l seen).trans (List.sublist_cons_self a l)
    · rw [dedupeKeys, if_neg ha]
      exact List.Sublist.cons₂ a (dedupeKeys_sublist l (a :: seen))

theorem dedupeKeys_nodup :
    ∀ (l : List (List Char)) (seen : List (List Char)), (dedupeKeys seen l).Nodup
  | [], _ => List.nodup_nil
  | a :: l, seen => by
    by_cases ha : a ∈ seen
    · rw [dedupeKeys, if_pos ha]
      exact dedupeKeys_nodup l seen
    · rw [dedupeKeys, if_neg ha, List.nodup_cons]
      refine ⟨fun hc => ?_, dedupeKeys_nodup l (a :: seen)⟩
      exact ((dedupeKeys_mem l (a :: seen) a).mp hc).2 (List.mem_cons_self a seen)

theorem dedupeKeys_cons_filter :
    ∀ (l : List (List Char)) (seen : List (List Char)) (a : List Char),
      dedupeKeys (a :: seen) l = dedupeKeys seen (l.filter (fun b => !(b == a)))
  | [], _, _ => rfl
  | b :: l, seen, a => by
    by_cases hba : b = a
    · subst hba
      rw [List.filter_cons, if_neg (by simp), dedupeKeys,
        if_pos (List.mem_cons_self b seen)]
      exact dedupeKeys_cons_filter l seen b
    · rw [List.filter_cons, if_pos (by simp [hba])]
      by_cases hb : b ∈ seen
      · rw [dedupeKeys, if_pos (List.mem_cons_of_mem a hb), dedupeKeys, if_pos hb]
        exact dedupeKeys_cons_filter l seen a
      · rw [dedupeKeys, if_neg (by simp [List.mem_cons, hba, hb]), dedupeKeys,
          if_neg hb]
        refine congrArg (b :: ·) ?_
        rw [@dedupeKeys_congr l (b :: a :: seen) (a :: b :: seen)
            (fun x => by simp [List.mem_cons]; tauto),
          dedupeKeys_cons_filter l (b :: seen) a]

/- ## Minimum as a fold -/

theorem foldl_min_le_init : ∀ (ps : List ℚ) (p : ℚ), ps.foldl min p ≤ p
  | [], p => le_refl p
  | q :: ps, p => le_trans (foldl_min_le_init ps (min p q)) (min_le_left p q)

theorem foldl_min_mem :
    ∀ (ps : List ℚ) (p : ℚ), ps.foldl min p = p ∨ ps.foldl min p ∈ ps
  | [], p => Or.inl rfl
  | q :: ps, p => by
    rcases foldl_min_mem ps (min p q) with h | h
    · rcases min_choice p q with hm | hm
      · exact Or.inl (by rw [List.foldl_cons, h, hm])
      · exact Or.inr (by rw [List.foldl_cons, h, hm]; exact List.mem_cons_self q ps)
    · exact Or.inr (List.mem_cons_of_mem q (by rw [List.foldl_cons]; exact h))

theorem foldl_min_le :
    ∀ (ps : List ℚ) (p x : ℚ), x ∈ ps → ps.foldl min p ≤ x
  | [], _, _, hx => absurd hx (List.not_mem_nil _)
  | q :: ps, p, x, hx => by
    rcases List.mem_cons.mp hx with rfl | hx
    · exact le_trans (foldl_min_le_init ps (min p x)) (min_le_right p x)
    · exact foldl_min_le ps (min p q) x hx

/- ## Price parsing -/

theorem takeWhile_all_append {p : Char → Bool} {A : List Char} {x : Char}
    (B : List Char) (hA : ∀ c ∈ A, p c = true) (hx : p x = false) :
    (A ++ x :: B).takeWhile p = A := by
  induction A with
  | nil => simp [List.takeWhile_cons, hx]
  | cons a A' ih =>
    rw [List.cons_append, List.takeWhile_cons,
      if_pos (hA a (List.mem_cons_self a A'))]
    rw [ih fun c hc => hA c (List.mem_cons_of_mem a hc)]

theorem dropWhile_all_append {p : Char → Bool} {A : List Char} {x : Char}
    (B : List Char) (hA : ∀ c ∈ A, p c = true) (hx : p x = false) :
    (A ++ x :: B).dropWhile p = x :: B := by
  induction A with
  | nil => simp [List.dropWhile_cons, hx]
  | cons a A' ih =>
    rw [List.cons_append, List.dropWhile_cons,
      if_pos (hA a (List.mem_cons_self a A'))]
    exact ih fun c hc => hA c (List.mem_cons_of_mem a hc)

theorem pyFloat_digits {g : List Char} (hg : g ≠ [])
    (hall : ∀ c ∈ g, pyIsDigit c = true) : pyFloat g = some (digitsVal g : ℚ) := by
  cases g with
  | nil => exact absurd rfl hg
  | cons d ds =>
    unfold pyFloat
    rw [List.takeWhile_eq_self_iff.mpr hall, List.dropWhile_eq_nil_iff.mpr hall]

theorem pyFloat_digits_frac {A F : List Char} (hA : A ≠ [])
    (hallA : ∀ c ∈ A, pyIsDigit c = true) (hF : F ≠ [])
    (hallF : ∀ c ∈ F, pyIsDigit c = true) :
    pyFloat (A ++ '.' :: F) =
      some ((digitsVal A : ℚ) + (digitsVal F : ℚ) / (10 : ℚ) ^ F.length) := by
  cases A with
  | nil => exact absurd rfl hA
  | cons d ds =>
    have hne : F.isEmpty = false := by
      cases F with
      | nil => exact absurd rfl hF
      | cons f fs => rfl
    unfold pyFloat
    rw [takeWhile_all_append F hallA (by decide),
      dropWhile_all_append F hallA (by decide)]
    show (if ('.' = '.' && !F.isEmpty && F.all pyIsDigit) = true then
        some ((digitsVal (d :: ds) : ℚ) + (digitsVal F : ℚ) / (10 : ℚ) ^ F.length)
      else none) = _
    rw [if_pos (by rw [hne, List.all_eq_true.mpr hallF]; rfl)]

theorem matchNumAt_decomp {l g : List Char} (h : matchNumAt l = some g) :
    (∃ r, l = g ++ r) ∧ ∃ v, pyFloat g = some v := by
  unfold matchNumAt at h
  cases htw : l.takeWhile pyIsDigit with
  | nil => rw [htw] at h; exact absurd h (by simp)
  | cons d ds =>
    rw [htw] at h
    have hall : ∀ c ∈ d :: ds, pyIsDigit c = true := fun c hc =>
      List.mem_takeWhile_imp (htw ▸ hc)
    have hsplit : (d :: ds) ++ l.dropWhile pyIsDigit = l := by
      rw [← htw]; exact List.takeWhile_append_dropWhile pyIsDigit l
    cases hdw : l.dropWhile pyIsDigit with
    | nil =>
      rw [hdw] at h hsplit
      cases h
      exact ⟨⟨[], by simpa using hsplit.symm⟩, ⟨_, pyFloat_digits (by simp) hall⟩⟩
    | cons e r2 =>
      rw [hdw] at h hsplit
      replace h : (if e = '.' then
          (match r2.takeWhile pyIsDigit with
            | [] => some (d :: ds)
            | f :: fs => some ((d :: ds) ++ '.' :: f :: fs))
        else some (d :: ds)) = some g := h
      by_cases he : e = '.'
      · subst he
        rw [if_pos rfl] at h
        cases htw2 : r2.takeWhile pyIsDigit with
        | nil =>
          rw [htw2] at h
          cases h
          exact ⟨⟨'.' :: r2, hsplit.symm⟩, ⟨_, pyFloat_digits (by simp) hall⟩⟩
        | cons f fs =>
          rw [htw2] at h
          cases h
          have hallf : ∀ c ∈ f :: fs, pyIsDigit c = true := fun c hc =>
            List.mem_takeWhile_imp (htw2 ▸ hc)
          have hsplit2 : (f :: fs) ++ r2.dropWhile pyIsDigit = r2 := by
            rw [← htw2]; exact List.takeWhile_append_dropWhile pyIsDigit r2
          refine ⟨⟨r2.dropWhile pyIsDigit, ?_⟩,
            ⟨_, pyFloat_digits_frac (by simp) hall (by simp) hallf⟩⟩
          have h2 : ('.' :: r2 : List Char)
              = '.' :: ((f :: fs) ++ r2.dropWhile pyIsDigit) := by rw [hsplit2]
          rw [← hsplit, h2]
          simp [List.append_assoc]
      · rw [if_neg he] at h
        cases h
        exact ⟨⟨e :: r2, hsplit.symm⟩, ⟨_, pyFloat_digits (by simp) hall⟩⟩

/-- Declarative reading of a successful match at one position: the text there
is an optional currency marker, a whitespace run, the captured group and a
rest, and the captured group is a token the numeric conversion accepts. -/
theorem matchAt_decomp {l g : List Char} (h : matchAt l = some g) :
    ∃ mk sp r, l = mk ++ (sp ++ (g ++ r))
      ∧ (mk = [] ∨ mk = ['¥'] ∨ mk = ['￥'])
      ∧ (∀ c ∈ sp, pyIsSpace c = true)
      ∧ ∃ v, pyFloat g = some v := by
  cases l with
  | nil => exact absurd h (by simp [matchAt])
  | cons c cs =>
    unfold matchAt at h
    replace h : (if isCurrencyMark c = true then matchNumAt (cs.dropWhile pyIsSpace)
        else matchNumAt ((c :: cs).dropWhile pyIsSpace)) = some g := h
    by_cases hcm : isCurrencyMark c = true
    · rw [if_pos hcm] at h
      obtain ⟨⟨r, hr⟩, hv⟩ := matchNumAt_decomp h
      refine ⟨[c], cs.takeWhile pyIsSpace, r, ?_, ?_, ?_, hv⟩
      · rw [← hr, List.singleton_append, List.takeWhile_append_dropWhile]
      · rcases (by simpa [isCurrencyMark] using hcm : c = '¥' ∨ c = '￥') with h1 | h1
        · exact Or.inr (Or.inl (by rw [h1]))
        · exact Or.inr (Or.inr (by rw [h1]))
      · exact fun x hx => List.mem_takeWhile_imp hx
    · rw [if_neg hcm] at h
      obtain ⟨⟨r, hr⟩, hv⟩ := matchNumAt_decomp h
      refine ⟨[], (c :: cs).takeWhile pyIsSpace, r, ?_, Or.inl rfl, ?_, hv⟩
      · rw [List.nil_append, ← hr, List.takeWhile_append_dropWhile]
      · exact fun x hx => List.mem_takeWhile_imp hx

/-- A successful search is the match at the leftmost matching position. -/
theorem searchPrice_some :
    ∀ {l g : List Char}, searchPrice l = some g →
      ∃ i, matchAt (l.drop i) = some g ∧ ∀ j < i, matchAt (l.drop j) = none
  | [], g, h => by simp [searchPrice] at h
  | c :: cs, g, h => by
    unfold searchPrice at h
    cases hm : matchAt (c :: cs) with
    | some g' =>
      rw [hm] at h
      cases h
      exact ⟨0, hm, fun j hj => absurd hj (Nat.not_lt_zero j)⟩
    | none =>
      rw [hm] at h
      obtain ⟨i, hi, hlt⟩ := searchPrice_some h
      refine ⟨i + 1, hi, fun j hj => ?_⟩
      cases j with
      | zero => exact hm
      | succ j => exact hlt j (Nat.lt_of_succ_lt_succ hj)

/-- A failed search means no position matches. -/
theorem searchPrice_none :
    ∀ {l : List Char}, searchPrice l = none → ∀ i, matchAt (l.drop i) = none
  | [], _, i => by cases i <;> simp [matchAt]
  | c :: cs, h, i => by
    unfold searchPrice at h
    cases hm : matchAt (c :: cs) with
    | some g' => rw [hm] at h; exact absurd h (by simp)
    | none =>
      rw [hm] at h
      cases i with
      | zero => exact hm
      | succ i => exact searchPrice_none h i

theorem removeAllF_comma :
    ∀ (f : Nat) (l : List Char), l.length ≤ f →
      removeAllF ',' [] f l = l.filter (fun c => !(c == ',')) := by
  intro f
  induction f with
  | zero =>
    intro l hf
    have : l = [] := List.length_eq_zero.mp (Nat.le_zero.mp hf)
    subst this
    rfl
  | succ f ih =>
    intro l hf
    cases l with
    | nil => rfl
    | cons c cs =>
      have hcs : cs.length ≤ f := by simp at hf; omega
      show (if litPre [','] (c :: cs) then removeAllF ',' [] f (List.drop 0 cs)
            else c :: removeAllF ',' [] f cs) = _
      by_cases hc : c = ','
      · subst hc
        rw [if_pos (by rfl), List.drop_zero, List.filter_cons, if_neg (by simp)]
        exact ih cs hcs
      · rw [if_neg (by simp [litPre]; exact fun hh => hc hh.symm),
          List.filter_cons, if_pos (by simp [hc])]
        rw [ih cs hcs]

/-- The comma-stripping of `parse_price` is exactly a filter dropping every
comma. -/
theorem removeComma_eq_filter (l : List Char) :
    removeAll ',' [] l = l.filter (fun c => !(c == ',')) :=
  removeAllF_comma l.length l (Nat.le_refl _)

theorem parse_price_eq_bind (t : List Char) :
    parse_price t = (searchPrice (removeAll ',' [] t)).bind pyFloat := by
  unfold parse_price
  cases hs : searchPrice (removeAll ',' [] t) with
  | none => rfl
  | some g =>
    show (match pyFloat g with | none => none | some v => some v) = pyFloat g
    cases pyFloat g <;> rfl

/- ## Normalization results are fixed by another strip -/

theorem stripWs_eq_self_of {l : List Char}
    (hhead : ∀ c r, l = c :: r → pyIsSpace c = false)
    (hlast : ∀ c r, l.reverse = c :: r → pyIsSpace c = false) :
    stripWs l = l := by
  unfold stripWs
  rw [dropWhile_eq_self_of_head hhead]
  exact dropTrailing_eq_self_of_rev_head hlast

theorem stripWs_concat_core {t : List Char}
    (hws : wsNormal t)
    (hrev : ∀ c r, t.reverse = c :: r → isStripSetChar c = false)
    (hne : t ≠ []) :
    stripWs (sparkChars ++ ' ' :: (scaleSlashChars ++ ' ' :: t))
      = sparkChars ++ ' ' :: (scaleSlashChars ++ ' ' :: t) := by
  obtain ⟨d, rs, hdr⟩ := List.exists_cons_of_ne_nil
    (fun hc : t.reverse = [] => hne (List.reverse_eq_nil_iff.mp hc))
  have hd : pyIsSpace d = false :=
    nonspace_of_clean hws (List.mem_reverse.mp (hdr ▸ List.mem_cons_self d rs))
      (hrev d rs hdr)
  have hfull : sparkChars ++ ' ' :: (scaleSlashChars ++ ' ' :: t)
      = ['s', 'p', 'a', 'r', 'k', ' ', '1', '/', '4', '3', ' '] ++ t := rfl
  apply stripWs_eq_self_of
  · intro c r h
    rw [hfull] at h
    injection h with h1 _
    rw [← h1]
    decide
  · intro c r h
    rw [hfull, List.reverse_append, hdr] at h
    injection h with h1 _
    rw [← h1]
    exact hd

/-- Running the four stripping steps over an already-normalized string
`"spark 1/43 " ++ t` gives back `t`, provided the removal steps leave `t`
itself unchanged (no whole-word brand token and no scale marker inside `t`). -/
theorem normCore_concat {c0 : Char} {t' : List Char}
    (hok : collapsedOK (c0 :: t'))
    (hhead : ∀ c r, c0 :: t' = c :: r → isStripSetChar c = false)
    (hlast : ∀ c r, (c0 :: t').reverse = c :: r → isStripSetChar c = false)
    (h1 : removeWordCI 's' ['p', 'a', 'r', 'k'] (c0 :: t') = c0 :: t')
    (h2 : removeAll '1' [':', '4', '3'] (c0 :: t') = c0 :: t')
    (h3 : removeAll '1' ['/', '4', '3'] (c0 :: t') = c0 :: t') :
    normCore (sparkChars ++ ' ' :: (scaleSlashChars ++ ' ' :: (c0 :: t'))) = c0 :: t' := by
  have hc0 : pyIsSpace c0 = false :=
    nonspace_of_clean hok.1 (List.mem_cons_self c0 t') (hhead c0 t' rfl)
  have ha2 : collapseWsAux true (c0 :: t') = c0 :: t' :=
    collapseWsAux_true_eq_self hc0 hok
  have hColA : collapseWs (sparkChars ++ ' ' :: (scaleSlashChars ++ ' ' :: (c0 :: t')))
      = sparkChars ++ ' ' :: (scaleSlashChars ++ ' ' :: (c0 :: t')) := by
    have e : collapseWs (sparkChars ++ ' ' :: (scaleSlashChars ++ ' ' :: (c0 :: t')))
        = ['s', 'p', 'a', 'r', 'k', ' ', '1', '/', '4', '3', ' ']
          ++ collapseWsAux true (c0 :: t') := rfl
    rw [e, ha2]
    rfl
  have hStripA := stripWs_concat_core hok.1 hlast (List.cons_ne_nil c0 t')
  have hC : removeWordCI 's' ['p', 'a', 'r', 'k']
        (sparkChars ++ ' ' :: (scaleSlashChars ++ ' ' :: (c0 :: t')))
      = ' ' :: '1' :: '/' :: '4' :: '3' :: ' ' :: (c0 :: t') := by
    have e : removeWordCI 's' ['p', 'a', 'r', 'k']
          (sparkChars ++ ' ' :: (scaleSlashChars ++ ' ' :: (c0 :: t')))
        = ' ' :: '1' :: '/' :: '4' :: '3' :: ' ' ::
          removeWordF 's' ['p', 'a', 'r', 'k'] ((c0 :: t').length + 4) false (c0 :: t') := rfl
    rw [e, removeWordF_fuel 's' ['p', 'a', 'r', 'k'] ((c0 :: t').length + 4)
      ((c0 :: t').length) false (c0 :: t') (by omega) (Nat.le_refl _)]
    exact congrArg (fun x => ' ' :: '1' :: '/' :: '4' :: '3' :: ' ' :: x) h1
  have hD : removeAll '1' [':', '4', '3'] (' ' :: '1' :: '/' :: '4' :: '3' :: ' ' :: (c0 :: t'))
      = ' ' :: '1' :: '/' :: '4' :: '3' :: ' ' :: (c0 :: t') := by
    have e : removeAll '1' [':', '4', '3'] (' ' :: '1' :: '/' :: '4' :: '3' :: ' ' :: (c0 :: t'))
        = ' ' :: '1' :: '/' :: '4' :: '3' :: ' ' ::
          removeAll '1' [':', '4', '3'] (c0 :: t') := rfl
    rw [e, h2]
  have hE : removeAll '1' ['/', '4', '3'] (' ' :: '1' :: '/' :: '4' :: '3' :: ' ' :: (c0 :: t'))
      = ' ' :: ' ' :: (c0 :: t') := by
    have e : removeAll '1' ['/', '4', '3'] (' ' :: '1' :: '/' :: '4' :: '3' :: ' ' :: (c0 :: t'))
        = ' ' :: ' ' :: removeAllF '1' ['/', '4', '3'] ((c0 :: t').length + 3) (c0 :: t') := rfl
    rw [e, removeAllF_fuel '1' ['/', '4', '3'] ((c0 :: t').length + 3)
      ((c0 :: t').length) (c0 :: t') (by omega) (Nat.le_refl _)]
    exact congrArg (fun x => ' ' :: ' ' :: x) h3
  have hF : collapseWs (' ' :: ' ' :: (c0 :: t')) = ' ' :: (c0 :: t') := by
    have e : collapseWs (' ' :: ' ' :: (c0 :: t')) = ' ' :: collapseWsAux true (c0 :: t') := rfl
    rw [e, ha2]
  have hG : stripSet (' ' :: (c0 :: t')) = c0 :: t' := by
    have e : stripSet (' ' :: (c0 :: t'))
        = dropTrailing isStripSetChar (List.dropWhile isStripSetChar (c0 :: t')) := rfl
    rw [e, dropWhile_eq_self_of_head hhead]
    exact dropTrailing_eq_self_of_rev_head hlast
  show stripSet (collapseWs
      (removeAll '1' ['/', '4', '3']
        (removeAll '1' [':', '4', '3']
          (removeWordCI 's' ['p', 'a', 'r', 'k']
            (stripWs (collapseWs
              (sparkChars ++ ' ' :: (scaleSlashChars ++ ' ' :: (c0 :: t'))))))))) = c0 :: t'
  rw [hColA, hStripA, hC, hD, hE, hF, hG]

/- ## The claims -/

/-- Claim C1, amended.  The claim says `normalize_name` removes the brand
token given by the `prefix_brand` argument; the source removes the literal
word `"spark"` whatever the argument is (the argument is only prepended).
Amended statement: `normalize_name` follows the claim's five steps with the
removed brand token being the literal `"spark"` (first conjunct); with the
default `prefix_brand = "spark"` the claim's algorithm agrees with the source
(second conjunct). -/
theorem claim_C1 (raw_name prefix_brand scale : List Char) :
    normalize_name raw_name prefix_brand scale
      = normalize_name_amendedC1 raw_name prefix_brand scale
    ∧ normalize_name raw_name sparkChars scale
      = normalize_name_claimC1 raw_name sparkChars scale :=
  ⟨rfl, rfl⟩

/-- Counterexample to claim C1 as stated: with `prefix_brand = "foo"` the
claim's five-step algorithm removes the word `"Foo"`, but the source leaves
it in place, so the two disagree on `"Foo car"`. -/
theorem claim_C1_cex :
    normalize_name "Foo car".toList "foo".toList scaleSlashChars
      ≠ normalize_name_claimC1 "Foo car".toList "foo".toList scaleSlashChars := by
  decide

/-- Claim C7, amended.  Idempotence of `normalize_name` with the default
arguments holds for every `raw_name` whose remaining text (after the four
stripping steps) is itself unchanged by the brand-word removal and by the two
scale-marker removals — that is, it contains no whole-word `"spark"` and no
`"1:43"` or `"1/43"` substring.  The unamended claim is false: stripping the
scale markers can manufacture a fresh brand token (see the counterexample). -/
theorem claim_C7 (raw_name : List Char)
    (h1 : removeWordCI 's' ['p', 'a', 'r', 'k'] (normCore raw_name) = normCore raw_name)
    (h2 : removeAll '1' [':', '4', '3'] (normCore raw_name) = normCore raw_name)
    (h3 : removeAll '1' ['/', '4', '3'] (normCore raw_name) = normCore raw_name) :
    normalize_name (normalize_name raw_name sparkChars scaleSlashChars)
        sparkChars scaleSlashChars
      = normalize_name raw_name sparkChars scaleSlashChars := by
  obtain ⟨hok, hhead, hlast⟩ := normCore_facts raw_name
  have key : ∀ (l p z : List Char),
      normalize_name l p z = stripWs (p ++ ' ' :: (z ++ ' ' :: normCore l)) :=
    fun _ _ _ => rfl
  cases hsplit : normCore raw_name with
  | nil =>
    rw [key raw_name, hsplit]
    decide
  | cons c0 t' =>
    rw [hsplit] at hok hhead hlast h1 h2 h3
    have hStripA := stripWs_concat_core hok.1 hlast (List.cons_ne_nil c0 t')
    rw [key raw_name, hsplit, hStripA,
      key (sparkChars ++ ' ' :: (scaleSlashChars ++ ' ' :: (c0 :: t'))),
      normCore_concat hok hhead hlast h1 h2 h3, hStripA]

/-- Counterexample to claim C7 as stated: `"spark1/43"` normalizes to
`"spark 1/43 spark"` (removing the scale marker fuses `"spark"` back
together), and a second pass strips that fresh brand word, giving
`"spark 1/43"`. -/
theorem claim_C7_cex :
    normalize_name (normalize_name "spark1/43".toList sparkChars scaleSlashChars)
        sparkChars scaleSlashChars
      ≠ normalize_name "spark1/43".toList sparkChars scaleSlashChars := by
  decide

/-- Witness for claim C7 at `"Spark 1/43 Ferrari"`. -/
theorem claim_C7_witness :
    normalize_name (normalize_name "Spark 1/43 Ferrari".toList sparkChars scaleSlashChars)
        sparkChars scaleSlashChars
      = normalize_name "Spark 1/43 Ferrari".toList sparkChars scaleSlashChars :=
  claim_C7 "Spark 1/43 Ferrari".toList (by decide) (by decide) (by decide)

/-- Claim C9: when normalization exhausts the raw name, the result is exactly
`"spark 1/43"` with no trailing space, and in general the result never has a
leading or trailing whitespace character — the final `strip()` settles the
specification's open question in favour of trimming. -/
theorem claim_C9 (raw_name : List Char) :
    (normCore raw_name = [] →
      normalize_name raw_name sparkChars scaleSlashChars = "spark 1/43".toList)
    ∧ (∀ c r, normalize_name raw_name sparkChars scaleSlashChars = c :: r →
        pyIsSpace c = false)
    ∧ (∀ c r, (normalize_name raw_name sparkChars scaleSlashChars).reverse = c :: r →
        pyIsSpace c = false) := by
  refine ⟨fun h => ?_, fun c r h => stripTwo_head h, fun c r h => dropTrailing_rev_head h⟩
  have key : normalize_name raw_name sparkChars scaleSlashChars
      = stripWs (sparkChars ++ ' ' :: (scaleSlashChars ++ ' ' :: normCore raw_name)) := rfl
  rw [key, h]
  decide

/-- Witness for claim C9 at a raw name made only of brand, scale and strip
characters. -/
theorem claim_C9_witness :
    normalize_name "  SPARK 1:43 -_ ".toList sparkChars scaleSlashChars
      = "spark 1/43".toList :=
  (claim_C9 "  SPARK 1:43 -_ ".toList).1 (by decide)

/-- Claim C2: `parse_price` first removes all commas (a filter dropping every
comma character), then returns the converted value of the first regex match:
a successful search is the match at the leftmost matching position, a failed
search means no position matches at all, and every match decomposes as an
optional currency marker, optional whitespace and a decimal-number capture
group fed to the numeric conversion.  The embedding is a total function, the
counterpart of "never raises". -/
theorem claim_C2 (text : List Char) :
    parse_price text = (searchPrice (text.filter (fun c => !(c == ',')))).bind pyFloat
    ∧ (∀ g, searchPrice (removeAll ',' [] text) = some g →
        ∃ i, matchAt ((removeAll ',' [] text).drop i) = some g
          ∧ ∀ j < i, matchAt ((removeAll ',' [] text).drop j) = none)
    ∧ (searchPrice (removeAll ',' [] text) = none →
        ∀ i, matchAt ((removeAll ',' [] text).drop i) = none)
    ∧ (∀ l g, matchAt l = some g →
        ∃ mk sp r, l = mk ++ (sp ++ (g ++ r))
          ∧ (mk = [] ∨ mk = ['¥'] ∨ mk = ['￥'])
          ∧ (∀ c ∈ sp, pyIsSpace c = true)
          ∧ ∃ v, pyFloat g = some v) := by
  refine ⟨?_, fun g h => searchPrice_some h, fun h i => searchPrice_none h i,
    fun l g h => matchAt_decomp h⟩
  rw [parse_price_eq_bind, removeComma_eq_filter]

/-- Witness for claim C2: on `"¥1,234.50"` the comma-stripped text has its
first (and here leftmost-position) match capturing `"1234.50"`. -/
theorem claim_C2_witness :
    ∃ i, matchAt ((removeAll ',' [] "¥1,234.50".toList).drop i) = some "1234.50".toList
      ∧ ∀ j < i, matchAt ((removeAll ',' [] "¥1,234.50".toList).drop j) = none :=
  (claim_C2 "¥1,234.50".toList).2.1 "1234.50".toList (by decide)

/-- Claim C10: the numeric-conversion failure branch is unreachable — every
group the price regex captures converts successfully, so `parse_price`
returns `none` exactly when the regex search finds no match. -/
theorem claim_C10 (text : List Char) :
    (∀ g, searchPrice (removeAll ',' [] text) = some g → ∃ v, pyFloat g = some v)
    ∧ (parse_price text = none ↔ searchPrice (removeAll ',' [] text) = none) := by
  have hs : ∀ g, searchPrice (removeAll ',' [] text) = some g →
      ∃ v, pyFloat g = some v := by
    intro g h
    obtain ⟨i, hi, _⟩ := searchPrice_some h
    obtain ⟨mk, sp, r, _, _, _, hv⟩ := matchAt_decomp hi
    exact hv
  refine ⟨hs, ?_⟩
  rw [parse_price_eq_bind]
  cases hsr : searchPrice (removeAll ',' [] text) with
  | none => simp
  | some g =>
    obtain ⟨v, hv⟩ := hs g hsr
    simp [hv]

/-- Witness for claim C10 at `"¥12.5"`: the captured group `"12.5"` converts. -/
theorem claim_C10_witness : ∃ v, pyFloat "12.5".toList = some v :=
  (claim_C10 "¥12.5".toList).1 "12.5".toList (by decide)

/-- Claim C6: `min_price` is `none` exactly on an empty price list and
otherwise a member of the list below every element (the minimum); `avg_price`
is `none` exactly on an empty list and otherwise the sum divided by the
count.  Both are functions of the `prices` field alone. -/
theorem claim_C6 (r : CompareResult) :
    (r.min_price = none ↔ r.prices = [])
    ∧ (r.avg_price = none ↔ r.prices = [])
    ∧ (∀ m, r.min_price = some m → m ∈ r.prices ∧ ∀ x ∈ r.prices, m ≤ x)
    ∧ (r.prices ≠ [] → r.avg_price = some (r.prices.sum / (r.prices.length : ℚ))) := by
  obtain ⟨sn, nn, ps⟩ := r
  cases ps with
  | nil =>
    refine ⟨by simp [CompareResult.min_price], by simp [CompareResult.avg_price],
      ?_, fun h => absurd rfl h⟩
    intro m h
    simp [CompareResult.min_price] at h
  | cons p ps' =>
    refine ⟨by simp [CompareResult.min_price], by simp [CompareResult.avg_price],
      ?_, fun _ => rfl⟩
    intro m h
    replace h : some (ps'.foldl min p) = some m := h
    cases h
    constructor
    · rcases foldl_min_mem ps' p with h | h
      · rw [h]; exact List.mem_cons_self p ps'
      · exact List.mem_cons_of_mem p h
    · intro x hx
      rcases List.mem_cons.mp hx with rfl | hx
      · exact foldl_min_le_init ps' x
      · exact foldl_min_le ps' p x hx

/-- Witness for claim C6: on prices `[10, 20, 30]` the computed minimum is a
member below every element. -/
theorem claim_C6_witness :
    (10 : ℚ) ∈ (CompareResult.mk [] [] [10, 20, 30]).prices
    ∧ ∀ x ∈ (CompareResult.mk [] [] [10, 20, 30]).prices, (10 : ℚ) ≤ x :=
  (claim_C6 (CompareResult.mk [] [] [10, 20, 30])).2.2.1 10 (by decide)

/-- Claim C3: the engine deduplicates the discovered names by exact equality
keeping the first occurrence (the recursion equation, no-duplicates, sublist
and membership conjuncts), then truncates to `maxSource`, and produces
exactly one result per retained name in the same order (the `map` of
`source_name` over the results is the deduplicated-then-truncated list); the
claim's own example is the last conjunct. -/
theorem claim_C3 (fragments : List (List Char))
    (gof : List Char → Option (List (List Char))) (maxSource maxPrice : Nat) :
    ((get_meruki_result_names fragments).isEmpty = false →
      ∃ rs, (mainRun (some fragments) gof maxSource maxPrice).2 = Except.ok rs
        ∧ rs.map CompareResult.source_name
            = (get_meruki_result_names fragments).take maxSource)
    ∧ (∀ (a : List Char) (l : List (List Char)),
        dedupeKeys [] (a :: l) = a :: dedupeKeys [] (l.filter (fun b => !(b == a))))
    ∧ (∀ l : List (List Char), (dedupeKeys [] l).Sublist l)
    ∧ (∀ l : List (List Char), (dedupeKeys [] l).Nodup)
    ∧ (∀ (l : List (List Char)) (x : List Char), x ∈ dedupeKeys [] l ↔ x ∈ l)
    ∧ dedupeKeys [] [['A'], ['B'], ['A'], ['C']] = [['A'], ['B'], ['C']] := by
  refine ⟨?_, ?_, fun l => dedupeKeys_sublist l [], fun l => dedupeKeys_nodup l [],
    fun l x => by simpa using dedupeKeys_mem l [] x, by decide⟩
  · intro h
    refine ⟨((get_meruki_result_names fragments).take maxSource).map (runItem gof maxPrice),
      by simp [mainRun, h], ?_⟩
    rw [List.map_map]
    have hcomp : CompareResult.source_name ∘ runItem gof maxPrice = id :=
      funext fun s => rfl
    rw [hcomp, List.map_id]
  · intro a l
    rw [show dedupeKeys [] (a :: l) = a :: dedupeKeys [a] l from by
        rw [dedupeKeys, if_neg (List.not_mem_nil a)],
      dedupeKeys_cons_filter l [] a]

/-- Witness for claim C3 on the discovery `["A", "B", "A", "C"]` with
`maxSource = 10`. -/
theorem claim_C3_witness :
    ∃ rs, (mainRun (some [['A'], ['B'], ['A'], ['C']]) (fun _ => none) 10 20).2
        = Except.ok rs
      ∧ rs.map CompareResult.source_name
          = (get_meruki_result_names [['A'], ['B'], ['A'], ['C']]).take 10 :=
  (claim_C3 [['A'], ['B'], ['A'], ['C']] (fun _ => none) 10 20).1 (by decide)

/-- Claim C4: an empty discovery raises the fatal error and no CSV write
happens on that path; and whenever the run ends in `ok`, its trace is
acquire, discovery, all the per-item fetches, and only then the single CSV
write before release — the table is written only after the whole batch. -/
theorem claim_C4 (fragments : List (List Char))
    (gof : List Char → Option (List (List Char))) (maxSource maxPrice : Nat) :
    ((get_meruki_result_names fragments).isEmpty = true →
      (mainRun (some fragments) gof maxSource maxPrice).2 = Except.error noNamesMsg
      ∧ Ev.writeCsv ∉ (mainRun (some fragments) gof maxSource maxPrice).1)
    ∧ (∀ tr rs, mainRun (some fragments) gof maxSource maxPrice = (tr, Except.ok rs) →
        tr = Ev.acquire :: Ev.discoverNames ::
          (rs.map (fun r => Ev.fetchPrices r.normalized_name)
            ++ [Ev.writeCsv, Ev.release])) := by
  constructor
  · intro h
    exact ⟨by simp [mainRun, h], by simp [mainRun, h]⟩
  · intro tr rs h
    cases hemp : (get_meruki_result_names fragments).isEmpty with
    | true => simp [mainRun, hemp] at h
    | false =>
      rw [show mainRun (some fragments) gof maxSource maxPrice
          = (Ev.acquire :: Ev.discoverNames ::
              (((get_meruki_result_names fragments).take maxSource).map
                  (fun s => Ev.fetchPrices (normalize_name s sparkChars scaleSlashChars))
                ++ [Ev.writeCsv, Ev.release]),
             Except.ok (((get_meruki_result_names fragments).take maxSource).map
               (runItem gof maxPrice))) from by simp [mainRun, hemp]] at h
      injection h with htr hok
      injection hok with hrs
      rw [← htr, ← hrs, List.map_map]
      rfl

/-- Witness for claim C4 with an empty fragment list (so discovery yields no
names). -/
theorem claim_C4_witness :
    (mainRun (some []) (fun _ => none) 10 20).2 = Except.error noNamesMsg
    ∧ Ev.writeCsv ∉ (mainRun (some []) (fun _ => none) 10 20).1 :=
  (claim_C4 [] (fun _ => none) 10 20).1 (by decide)

/-- Claim C5: whenever discovery yields names, the run reaches `ok` whatever
the per-item oracle does — one result per retained name, in order — and any
item whose resale fetch times out (oracle `none`) gets an empty price list
while the rest of the batch is still produced. -/
theorem runItem_map_get (gof : List Char → Option (List (List Char)))
    (maxPrice : Nat) (L : List (List Char)) (i : Nat)
    (hi : i < (L.map (runItem gof maxPrice)).length) (hj : i < L.length) :
    (L.map (runItem gof maxPrice)).get ⟨i, hi⟩
      = runItem gof maxPrice (L.get ⟨i, hj⟩) := by
  rw [List.get_eq_getElem, List.get_eq_getElem, List.getElem_map]

theorem runItem_facts (gof : List Char → Option (List (List Char)))
    (maxPrice : Nat) (s : List Char) :
    (runItem gof maxPrice s).source_name = s
    ∧ (gof ((runItem gof maxPrice s).normalized_name) = none →
        (runItem gof maxPrice s).prices = []) := by
  dsimp only [runItem]
  exact ⟨rfl, fun hg => by rw [hg]⟩

theorem claim_C5 (fragments : List (List Char))
    (gof : List Char → Option (List (List Char))) (maxSource maxPrice : Nat)
    (h : (get_meruki_result_names fragments).isEmpty = false) :
    ∃ rs, (mainRun (some fragments) gof maxSource maxPrice).2 = Except.ok rs
      ∧ rs.length = ((get_meruki_result_names fragments).take maxSource).length
      ∧ ∀ (i : Nat) (hi : i < rs.length)
          (hj : i < ((get_meruki_result_names fragments).take maxSource).length),
          (rs.get ⟨i, hi⟩).source_name
              = ((get_meruki_result_names fragments).take maxSource).get ⟨i, hj⟩
          ∧ (gof ((rs.get ⟨i, hi⟩).normalized_name) = none →
              (rs.get ⟨i, hi⟩).prices = []) := by
  refine ⟨((get_meruki_result_names fragments).take maxSource).map (runItem gof maxPrice),
    by simp [mainRun, h], by simp, ?_⟩
  intro i hi hj
  rw [runItem_map_get gof maxPrice _ i hi hj]
  exact ⟨(runItem_facts gof maxPrice _).1, (runItem_facts gof maxPrice _).2⟩

/-- Witness for claim C5: a single discovered name whose resale fetch times
out still yields its result row. -/
theorem claim_C5_witness :
    ∃ rs, (mainRun (some [['A']]) (fun _ => none) 10 20).2 = Except.ok rs
      ∧ rs.length = ((get_meruki_result_names [['A']]).take 10).length
      ∧ ∀ (i : Nat) (hi : i < rs.length)
          (hj : i < ((get_meruki_result_names [['A']]).take 10).length),
          (rs.get ⟨i, hi⟩).source_name
              = ((get_meruki_result_names [['A']]).take 10).get ⟨i, hj⟩
          ∧ ((fun (_ : List Char) => (none : Option (List (List Char))))
                ((rs.get ⟨i, hi⟩).normalized_name) = none →
              (rs.get ⟨i, hi⟩).prices = []) :=
  claim_C5 [['A']] (fun _ => none) 10 20 (by decide)

/-- Claim C8: on every path of the run — discovery timeout, empty discovery,
and the normal path, whatever the per-item outcomes — the trace starts with
exactly one acquisition of the browsing context and ends with exactly one
release. -/
theorem claim_C8 (meruki : Option (List (List Char)))
    (gof : List Char → Option (List (List Char))) (maxSource maxPrice : Nat) :
    ((mainRun meruki gof maxSource maxPrice).1).head? = some Ev.acquire
    ∧ ((mainRun meruki gof maxSource maxPrice).1).getLast? = some Ev.release
    ∧ ((mainRun meruki gof maxSource maxPrice).1).count Ev.acquire = 1
    ∧ ((mainRun meruki gof maxSource maxPrice).1).count Ev.release = 1 := by
  cases meruki with
  | none => exact ⟨rfl, rfl, rfl, rfl⟩
  | some fragments =>
    cases hemp : (get_meruki_result_names fragments).isEmpty with
    | true =>
      rw [show (mainRun (some fragments) gof maxSource maxPrice).1
          = [Ev.acquire, Ev.discoverNames, Ev.release] from by simp [mainRun, hemp]]
      exact ⟨rfl, rfl, rfl, rfl⟩
    | false =>
      rw [show (mainRun (some fragments) gof maxSource maxPrice).1
          = Ev.acquire :: Ev.discoverNames ::
              (((get_meruki_result_names fragments).take maxSource).map
                  (fun s => Ev.fetchPrices (normalize_name s sparkChars scaleSlashChars))
                ++ [Ev.writeCsv, Ev.release]) from by simp [mainRun, hemp]]
      have hMa : (((get_meruki_result_names fragments).map
          (fun s => Ev.fetchPrices (normalize_name s sparkChars scaleSlashChars))).take
            maxSource).count Ev.acquire = 0 := by
        rw [List.count_eq_zero]
        intro hc
        obtain ⟨s, _, hs⟩ := List.mem_map.mp (List.take_subset _ _ hc)
        exact Ev.noConfusion hs
      have hMr : (((get_meruki_result_names fragments).map
          (fun s => Ev.fetchPrices (normalize_name s sparkChars scaleSlashChars))).take
            maxSource).count Ev.release = 0 := by
        rw [List.count_eq_zero]
        intro hc
        obtain ⟨s, _, hs⟩ := List.mem_map.mp (List.take_subset _ _ hc)
        exact Ev.noConfusion hs
      refine ⟨rfl, ?_, ?_, ?_⟩
      · rw [List.getLast?_cons_cons,
          show Ev.discoverNames ::
              (((get_meruki_result_names fragments).take maxSource).map
                  (fun s => Ev.fetchPrices (normalize_name s sparkChars scaleSlashChars))
                ++ [Ev.writeCsv, Ev.release])
            = (Ev.discoverNames ::
                (((get_meruki_result_names fragments).take maxSource).map
                    (fun s => Ev.fetchPrices (normalize_name s sparkChars scaleSlashChars))
                  ++ [Ev.writeCsv])) ++ [Ev.release] from by simp,
          List.getLast?_concat]
      · simp [List.count_cons, List.count_append, hMa]
      · simp [List.count_cons, List.count_append, hMr]

end PriceCompare
